import Mathlib

/-!
Verification of the ergo runtime against its specification.

The Rust sources are shallowly embedded: pure functions become Lean
functions, stateful code becomes explicit state passing, machine integers
become `Nat` (with explicit bounds where overflow matters), and fallible
code returns `Option`.  Each claim about the program is stated and settled
as a theorem over these definitions.
-/

namespace Ergo

/-! ## Value identity (spec §4.1)

The grease `value` module that computes identities is not among the
provided sources; it is modelled from the spec. -/

/-- Modelled from the spec: the fixed 128-bit cryptographic-strength hash
`H` used for value identities (the grease `value` module implementing it is
missing from the sources).  Collision freedom of the hash is modelled by an
injective encoding of the input sequence, folding `Nat.pair` over it. -/
def hashSeq : List Nat → Nat
  | [] => 0
  | x :: rest => Nat.pair x (hashSeq rest) + 1

/-- Modelled from the spec: `id = H(type_id ‖ for each dep: dep.id)` — the
identity of a Value as a function of its type identifier and the ordered
list of its dependency identities. -/
def valueId (typeId : Nat) (deps : List Nat) : Nat :=
  hashSeq (typeId :: deps)

/-! ## Error aggregation (`so_runtime/src/lib.rs`, `ResultIterator::collect_result`) -/

/-- The result of `collect_result`: either all collected values, or a
single aggregated error holding every sibling error
(`grease::value::Error::aggregate`). -/
inductive AggResult (E A : Type) where
  | ok (values : List A)
  | aggregate (errors : List E)
deriving DecidableEq, Repr

/-- The loop inside `collect_result`: the `filter_map` pushes every `Err`
onto `errs` and passes every `Ok` value through to the collected result.
Accumulators are kept reversed. -/
def collectResultGo {E A : Type} : List (Except E A) → List E → List A → AggResult E A
  | [], errs, oks => if errs.isEmpty then .ok oks.reverse else .aggregate errs.reverse
  | .error e :: rest, errs, oks => collectResultGo rest (e :: errs) oks
  | .ok v :: rest, errs, oks => collectResultGo rest errs (v :: oks)

/-- `ResultIterator::collect_result` from `so_runtime/src/lib.rs`. -/
def collectResult {E A : Type} (l : List (Except E A)) : AggResult E A :=
  collectResultGo l [] []

/-- The errors among a list of results, in order. -/
def errorsOf {E A : Type} (l : List (Except E A)) : List E :=
  l.filterMap fun r => match r with | .error e => some e | .ok _ => none

/-- The ok values among a list of results, in order. -/
def valuesOf {E A : Type} (l : List (Except E A)) : List A :=
  l.filterMap fun r => match r with | .error _ => none | .ok v => some v

/-! ## Store item paths (`grease/src/runtime/store.rs`) -/

/-- One lowercase hexadecimal digit, as produced by Rust LowerHex
formatting. -/
def hexDigit (n : Nat) : Char := Nat.digitChar n

/-- Fuel-indexed core of `lowerHex`; the fuel only serves structural
recursion and is always sufficient at `n + 1`. -/
def lowerHexCore : Nat → Nat → List Char
  | 0, _ => []
  | fuel + 1, n =>
    if n < 16 then [hexDigit n]
    else lowerHexCore fuel (n / 16) ++ [hexDigit (n % 16)]

/-- The output of Rust `format!("{:x}", id)`: lowercase hex digits with no
leading zeros (a single `0` for zero). -/
def lowerHex (n : Nat) : List Char := lowerHexCore (n + 1) n

/-- An `Item` of the store: a directory path (list of components) plus the
item name, as in `grease/src/runtime/store.rs`. -/
structure StoreItem where
  path : List String
  item : String
deriving DecidableEq, Repr

/-- `Item::value_id` from `grease/src/runtime/store.rs`: push
`<item>-v`, then the first two and next two characters of the hex
rendering of `id` as directories, with the remaining characters as the new
item name.  The Rust byte-range indexing `&id[..2]`, `&id[2..4]` and
`&id[4..]` panics when the rendering has fewer than four characters, which
is modelled as `none`. -/
def valueIdItem (it : StoreItem) (id : Nat) : Option StoreItem :=
  let hex := lowerHex id
  if hex.length < 4 then none
  else some
    { path := it.path ++
        [it.item ++ "-v", (hex.take 2).asString, ((hex.drop 2).take 2).asString]
      item := (hex.drop 4).asString }

/-- The zero-padded 32-hex-digit rendering `h1h2…h32` of a 128-bit
identity, following the words of the spec. -/
def paddedHex32 (id : Nat) : List Char :=
  List.replicate (32 - (lowerHex id).length) '0' ++ lowerHex id

/-- The store location as the claim words it: the 2/2/28 split of the
32-hex-digit (zero-padded) rendering of the identity. -/
def specValueIdItem (it : StoreItem) (id : Nat) : StoreItem :=
  let hex := paddedHex32 id
  { path := it.path ++
      [it.item ++ "-v", (hex.take 2).asString, ((hex.drop 2).take 2).asString]
    item := (hex.drop 4).asString }

/-! ## Script loading (`ergo_script/src/base/load.rs`) -/

/-- A canonical script path.  `Path::canonicalize` is the identity in the
model, matching the documented precondition that the path passed to
`load_script` is an existing file. -/
abbrev SPath := String

/-- The Value a load returns: the Error value built when a load is already
in progress, or the result of evaluating the script at a path. -/
inductive LoadValue where
  | errorValue (msg : String)
  | scriptValue (p : SPath)
deriving DecidableEq, Repr

/-- The state of `LoadData`, plus an evaluation trace: `loading` is the
in-progress vector, `cache` the `load_cache` map (most recent entry
first), and `trace` records every script evaluation performed, in order,
to express single-evaluation properties. -/
structure LoadState where
  loading : List SPath
  cache : List (SPath × LoadValue)
  trace : List SPath
deriving DecidableEq, Repr

/-- `BTreeMap::get` on the load cache. -/
def cacheLookup (cache : List (SPath × LoadValue)) (p : SPath) : Option LoadValue :=
  (cache.find? (fun kv => kv.1 == p)).map (fun kv => kv.2)

/-- Sequentially perform the nested loads of a script body, threading the
loader state and stopping on fuel exhaustion. -/
def loadSeq (loadOne : LoadState → SPath → Option (LoadState × LoadValue)) :
    LoadState → List SPath → Option LoadState
  | s, [] => some s
  | s, q :: qs =>
    match loadOne s q with
    | none => none
    | some (s2, _) => loadSeq loadOne s2 qs

/-- `LoadData::load_script`, sequentially: report an Error value when the
path is already in the `loading` vector; otherwise consult the cache; on a
miss push the path onto `loading`, record the evaluation, perform the
nested loads the script at the path makes (given by `world`), insert the
result into the cache and pop the `loading` vector.  `fuel` bounds the
recursion depth, with exhaustion modelled as `none`. -/
def loadScript (world : SPath → List SPath) :
    Nat → LoadState → SPath → Option (LoadState × LoadValue)
  | 0, _, _ => none
  | fuel + 1, s, p =>
    if p ∈ s.loading then
      some (s, LoadValue.errorValue ("already loading " ++ p))
    else
      match cacheLookup s.cache p with
      | some v => some (s, v)
      | none =>
        match loadSeq (fun st q => loadScript world fuel st q)
            { loading := s.loading ++ [p], cache := s.cache, trace := s.trace ++ [p] }
            (world p) with
        | none => none
        | some s2 =>
          some ({ loading := s2.loading.dropLast,
                  cache := (p, LoadValue.scriptValue p) :: s2.cache,
                  trace := s2.trace },
                LoadValue.scriptValue p)

/-- A two-script world in which the script at `a` loads `b` and the script
at `b` loads `a`, as in scenario S4 of the spec. -/
def cyclicWorld : SPath → List SPath :=
  fun p => if p = "a" then ["b"] else if p = "b" then ["a"] else []

/-- The loader invariant: in-progress paths are distinct, every script has
been evaluated at most once, and the evaluated scripts are exactly the
cached or in-progress paths. -/
def LoadInv (s : LoadState) : Prop :=
  s.loading.Nodup ∧
  (∀ q, s.trace.count q ≤ 1) ∧
  (∀ q, q ∈ s.trace ↔ ((cacheLookup s.cache q).isSome ∨ q ∈ s.loading))

/-! ## Map values and binding (`ergo_runtime/src/types/map.rs`) -/

/-- An evaluated script Value as the Map trait implementations see it: its
128-bit identity (`Value::id()`) plus its evaluated payload. -/
structure MVal where
  vid : Nat
  payload : Nat
deriving DecidableEq, Repr

/-- `BstMap::get` on a Map's entries, comparing the index against the
stored keys. -/
def mapGetEntry (m : List (MVal × MVal)) (k : MVal) : Option MVal :=
  (m.find? (fun kv => kv.1 == k)).map (fun kv => kv.2)

/-- The already-evaluated argument a Map is bound with: an `Index` value,
another `Map` (destructuring bind), or any other value. -/
inductive BindArg where
  | index (k : MVal)
  | mapArg (pat : List (MVal × MVal))
  | other (v : MVal)
deriving DecidableEq, Repr

/-- The outcome of `traits::Bind for Map`: an entry's value, the `Unset`
value, the `Unit` value (successful destructuring), or an error Value. -/
inductive BindOut where
  | value (v : MVal)
  | unsetVal
  | unitVal
  | bindErr
deriving DecidableEq, Repr

/-- `traits::Bind for Map` from `ergo_runtime/src/types/map.rs` (the
argument is already evaluated): an `Index` argument is looked up in the
entries, giving the entry's value or `Unset`; a `Map` argument runs
`traits::bind_map` (whose own outcome, out of scope here, is the
`bindMapRes` oracle); anything else is `traits::bind_error`. -/
def mapBind (bindMapRes : List (MVal × MVal) → BindOut)
    (m : List (MVal × MVal)) (arg : BindArg) : BindOut :=
  match arg with
  | .index k =>
    match mapGetEntry m k with
    | some v => .value v
    | none => .unsetVal
  | .mapArg pat => bindMapRes pat
  | .other _ => .bindErr

/-! ## Stored Maps (`ergo_runtime/src/types/map.rs`, `Stored` impl) -/

/-- The value store, keyed by value identity:
`StoredContext::write_to_store` prepends an entry (the child value
serialised under its own identity by its own `Stored` impl, which is the
per-child round-trip contract) and `read_from_store` finds the most recent
entry. -/
abbrev VStore := List (Nat × MVal)

/-- `StoredContext::read_from_store` at an identity. -/
def storeRead (store : VStore) (i : Nat) : Option MVal :=
  (store.find? (fun kv => kv.1 == i)).map (fun kv => kv.2)

/-- `BTreeMap<u128, u128>::insert`: ordered insertion by key, replacing an
existing entry. -/
def btInsert : List (Nat × Nat) → Nat → Nat → List (Nat × Nat)
  | [], k, v => [(k, v)]
  | (k2, v2) :: rest, k, v =>
    if k < k2 then (k, v) :: (k2, v2) :: rest
    else if k = k2 then (k, v) :: rest
    else (k2, v2) :: btInsert rest k v

/-- The loop of `Stored::put for Map`: for each entry insert
`(k.id(), v.id())` into the `ids` map and write the key and the value to
the store.  The serialised item content is the final ordered id-pair list
(bincode serialises a `BTreeMap` in ascending key order). -/
def mapPutGo : List (MVal × MVal) → VStore → List (Nat × Nat) → VStore × List (Nat × Nat)
  | [], store, ids => (store, ids)
  | (k, v) :: rest, store, ids =>
    mapPutGo rest ((v.vid, v) :: (k.vid, k) :: store) (btInsert ids k.vid v.vid)

/-- `Stored::put for Map` from `ergo_runtime/src/types/map.rs`, returning
the store after the child writes and the serialised id pairs. -/
def mapPut (m : List (MVal × MVal)) (store : VStore) : VStore × List (Nat × Nat) :=
  mapPutGo m store []

/-- `Stored::get for Map`: deserialise the id pairs and read each key and
value back from the store, failing if any is missing. -/
def mapGet (store : VStore) : List (Nat × Nat) → Option (List (MVal × MVal))
  | [] => some []
  | (ki, vi) :: rest =>
    match storeRead store ki, storeRead store vi, mapGet store rest with
    | some k, some v, some m => some ((k, v) :: m)
    | _, _, _ => none

/-- The values occurring in a Map: its keys and values. -/
def mapVals : List (MVal × MVal) → List MVal
  | [] => []
  | (k, v) :: rest => k :: v :: mapVals rest

/-- The id pairs of a Map's entries, in entry order. -/
def pairIds (m : List (MVal × MVal)) : List (Nat × Nat) :=
  m.map (fun kv => (kv.1.vid, kv.2.vid))

/-! ## Trait lookup for `IntoTyped<Bool>` (`ergo_runtime/src/traits/into.rs`,
`ergo_runtime/src/types/unset.rs`) -/

/-- A grease `Type`: identifying UUID plus optional data blob
(`grease/src/types.rs`), with UUIDs as abstract naturals. -/
structure GType where
  uuid : Nat
  data : List Nat
deriving DecidableEq, Repr

/-- The `Unset` type descriptor (a distinguished UUID). -/
def unsetType : GType := ⟨0, []⟩

/-- The `Bool` type descriptor (a distinguished UUID). -/
def boolType : GType := ⟨1, []⟩

/-- The direct `IntoTyped<Bool>` implementations registered in the
sources: the `Unset` impl converts every value to `Bool(false)`
(`impl IntoTyped<Bool> for Unset` in `traits/into.rs`, and
`From<Unset> for Bool` in `types/unset.rs`). -/
def intoBoolDirectImpls : List (GType × (MVal → Bool)) :=
  [(unsetType, fun _ => false)]

/-- The `to_bool` generator-by-trait registered for `IntoTyped<Bool>` in
`traits/into.rs`: for every type it yields the conversion mapping any
value to `Bool(true)`. -/
def toBoolGenerator : GType → Option (MVal → Bool) :=
  fun _ => some (fun _ => true)

/-- Modelled from the spec (§4.2): `get_impl` consults direct
implementations first, then generators-by-trait (the registry internals in
`grease/src/runtime/traits.rs` are not among the sources); specialised to
the `IntoTyped<Bool>` trait with the implementations registered in the
sources. -/
def getImplIntoBool (t : GType) : Option (MVal → Bool) :=
  ((intoBoolDirectImpls.find? (fun kv => kv.1 == t)).map (fun kv => kv.2)).orElse
    (fun _ => toBoolGenerator t)

/-- The boolean an `IntoTyped<Bool>` conversion produces for a value of
type `t`, when an implementation resolves. -/
def intoBoolConvert (t : GType) (v : MVal) : Option Bool :=
  (getImplIntoBool t).map (fun f => f v)

/-! ## Script path resolution (`ergo_script/src/base/load.rs`) -/

/-- A filesystem path as a list of components. -/
abbrev FPath := List String

/-- What a path names on disk. -/
inductive FKind where
  | file
  | dir
deriving DecidableEq, Repr

/-- A filesystem snapshot: the kind of every existing path. -/
abbrev FileSystem := List (FPath × FKind)

/-- The kind of a path, `none` when it does not exist. -/
def fsKind (fs : FileSystem) (p : FPath) : Option FKind :=
  (fs.find? (fun kv => kv.1 == p)).map (fun kv => kv.2)

/-- The script extension (`EXTENSION`), per the resolution rules documented
in `load.rs`; `crate::constants` is not among the sources. -/
def scriptExtension : String := "ergo"

/-- The directory script name (`DIR_NAME`), per the resolution rules
documented in `load.rs`: a directory is entered through its `dir.ergo`. -/
def dirScriptName : String := "dir.ergo"

/-- `Path::with_file_name`: replace the final component. -/
def withFileName (p : FPath) (name : String) : FPath :=
  p.dropLast ++ [name]

/-- `Path::file_name` of a relative name made of normal components: its
last component. -/
def fileNameOf (p : FPath) : Option String := p.getLast?

/-- The `while p.is_dir()` loop of `script_path_exists`: while the
candidate is a directory containing `dir.ergo`, descend into it.  The fuel
only bounds the loop; `fs.length + 1` steps always reach a candidate that
is no longer a descendable directory, since each step descends into a
strictly longer existing path. -/
def descendLoop (fs : FileSystem) : Nat → FPath → FPath
  | 0, p => p
  | fuel + 1, p =>
    if fsKind fs p = some FKind.dir then
      if (fsKind fs (p ++ [dirScriptName])).isSome then
        descendLoop fs fuel (p ++ [dirScriptName])
      else p
    else p

/-- The tail of `script_path_exists`: descend through directories, then
accept the candidate only if it is a file. -/
def descendToFile (fs : FileSystem) (p : FPath) : Option FPath :=
  if fsKind fs (descendLoop fs (fs.length + 1) p) = some FKind.file then
    some (descendLoop fs (fs.length + 1) p)
  else none

/-- `script_path_exists` from `ergo_script/src/base/load.rs`, as the
function of the searched directory it returns: try the name with the
script extension appended to its file name; fall back to the exact name;
then descend through directories and requires a file. -/
def scriptPathExists (fs : FileSystem) (name : FPath) (tryAddExtension : Bool)
    (path : FPath) : Option FPath :=
  (if tryAddExtension then
    match fileNameOf name with
    | some fn =>
      let pExt := withFileName (path ++ name) (fn ++ "." ++ scriptExtension)
      if (fsKind fs pExt).isSome then some pExt else none
    | none => none
  else none)
  |>.orElse (fun _ =>
    let pExact := path ++ name
    if (fsKind fs pExact).isSome then some pExact else none)
  |>.bind (fun p => descendToFile fs p)

/-- `LoadData::resolve_script_path`: search the working directory (the
current directory when none is given, when it is available), then each
load-path entry in order. -/
def resolveScriptPath (fs : FileSystem) (loadPath : List FPath)
    (workingDir currentDir : Option FPath) (name : FPath) : Option FPath :=
  (match workingDir with
   | some d => scriptPathExists fs name true d
   | none => currentDir.bind (fun d => scriptPathExists fs name true d))
  |>.orElse (fun _ => loadPath.findSome? (fun d => scriptPathExists fs name true d))

/-! ## Store items on disk (`grease/src/runtime/store.rs`) -/

/-- A filesystem state for the store: existing directories and the
contents of existing files. -/
structure FileSys where
  dirs : List FPath
  files : List (FPath × List Nat)
deriving DecidableEq, Repr

/-- An `Item`: its directory path and item file name. -/
structure FsItem where
  dir : FPath
  name : String
deriving DecidableEq, Repr

/-- The file path an item denotes (`Item::path`). -/
def itemFullPath (it : FsItem) : FPath := it.dir ++ [it.name]

/-- The content of an existing file. -/
def lookupFile (files : List (FPath × List Nat)) (p : FPath) : Option (List Nat) :=
  (files.find? (fun kv => kv.1 == p)).map (fun kv => kv.2)

/-- `std::fs::OpenOptions`. -/
structure OpenOptions where
  read : Bool
  write : Bool
  create : Bool
  truncate : Bool
deriving DecidableEq, Repr

/-- `Item::open`: `create_dir_all(&self.path)` (creating the item's
directory and every ancestor), then `options.open(self.path())`, where
`path()` repeats the `create_dir_all` (idempotent here) and appends the
item name.  Standard `OpenOptions` semantics: a missing file is created
empty when `create` (with `write`) is set and is an error otherwise;
`truncate` empties an existing file; opening a directory path fails.  The
returned list is the content a reader of the item observes. -/
def openItem (st : FileSys) (it : FsItem) (opts : OpenOptions) :
    Option (FileSys × List Nat) :=
  if itemFullPath it ∈ it.dir.inits ++ st.dirs then none
  else
    match lookupFile st.files (itemFullPath it) with
    | some content =>
      if opts.truncate then
        some (⟨it.dir.inits ++ st.dirs, (itemFullPath it, []) :: st.files⟩, [])
      else some (⟨it.dir.inits ++ st.dirs, st.files⟩, content)
    | none =>
      if opts.create && opts.write then
        some (⟨it.dir.inits ++ st.dirs, (itemFullPath it, []) :: st.files⟩, [])
      else none

/-- `Item::read`: open with read, write and create options. -/
def itemRead (st : FileSys) (it : FsItem) : Option (FileSys × List Nat) :=
  openItem st it ⟨true, true, true, false⟩

/-- `Item::read_existing`: open with the read option only. -/
def itemReadExisting (st : FileSys) (it : FsItem) : Option (FileSys × List Nat) :=
  openItem st it ⟨true, false, false, false⟩

/-- `Item::exists`: whether the item's path exists (as a file or a
directory).  `Item::path` re-runs `create_dir_all`, which does not change
the states this is applied to here. -/
def itemExists (st : FileSys) (it : FsItem) : Bool :=
  (lookupFile st.files (itemFullPath it)).isSome || decide (itemFullPath it ∈ st.dirs)

/-! # Theorems -/

/-! ## Identity (C1) -/

theorem hashSeq_injective : Function.Injective hashSeq := by
  intro a
  induction a with
  | nil =>
    intro b h
    cases b with
    | nil => rfl
    | cons y ys => simp [hashSeq] at h
  | cons x xs ih =>
    intro b h
    cases b with
    | nil => simp [hashSeq] at h
    | cons y ys =>
      simp only [hashSeq, Nat.add_right_cancel_iff] at h
      have h2 := Nat.pair_eq_pair.mp h
      rw [h2.1, ih h2.2]

/-- C1: identity of a Value is a deterministic function of its type
identifier and its ordered dependency identities — building twice from the
same `(type, deps)` yields equal identities, and reordering a list of
distinct dependencies yields a different identity. -/
theorem C1_identity_deterministic (typeId : Nat) (deps deps2 : List Nat)
    (hperm : deps2.Perm deps) (hnodup : deps.Nodup) (hne : deps2 ≠ deps) :
    valueId typeId deps = valueId typeId deps ∧
      valueId typeId deps2 ≠ valueId typeId deps := by
  refine ⟨rfl, fun h => hne ?_⟩
  have h2 : typeId :: deps2 = typeId :: deps := hashSeq_injective h
  exact List.cons.inj h2 |>.2

/-- Witness for C1 at `(0, [0, 1])` reordered to `[1, 0]`. -/
theorem C1_identity_deterministic_witness :
    valueId 0 [0, 1] = valueId 0 [0, 1] ∧ valueId 0 [1, 0] ≠ valueId 0 [0, 1] :=
  C1_identity_deterministic 0 [0, 1] [1, 0] (by decide) (by decide) (by decide)

/-! ## Error aggregation (C8) -/

theorem collectResultGo_spec {E A : Type} (l : List (Except E A))
    (errs : List E) (oks : List A) :
    collectResultGo l errs oks =
      if (errs.reverse ++ errorsOf l).isEmpty then
        AggResult.ok (oks.reverse ++ valuesOf l)
      else AggResult.aggregate (errs.reverse ++ errorsOf l) := by
  induction l generalizing errs oks with
  | nil =>
    simp only [errorsOf, valuesOf, List.filterMap_nil, List.append_nil, collectResultGo]
    cases errs <;> simp
  | cons r rest ih =>
    cases r with
    | error e =>
      simp only [collectResultGo, errorsOf, valuesOf, List.filterMap_cons, ih,
        List.reverse_cons]
      simp
    | ok v =>
      simp only [collectResultGo, errorsOf, valuesOf, List.filterMap_cons, ih,
        List.reverse_cons]
      simp

/-- C8: `collect_result` combines all sibling failures — with no errors it
returns `ok` of all the values in order; with at least one error it returns
a single aggregate error containing every error (none dropped); and no
result is lost (the error and value counts sum to the input count). -/
theorem C8_collect_result_aggregates {E A : Type} (l : List (Except E A)) :
    (errorsOf l = [] → collectResult l = AggResult.ok (valuesOf l)) ∧
      (errorsOf l ≠ [] → collectResult l = AggResult.aggregate (errorsOf l)) ∧
      (errorsOf l).length + (valuesOf l).length = l.length := by
  refine ⟨?_, ?_, ?_⟩
  · intro h
    simp [collectResult, collectResultGo_spec, h, List.isEmpty_iff]
  · intro h
    rw [collectResult, collectResultGo_spec]
    simp only [List.reverse_nil, List.nil_append]
    rw [if_neg (by simpa using h)]
  · induction l with
    | nil => simp [errorsOf, valuesOf]
    | cons r rest ih =>
      cases r with
      | error e => simp [errorsOf, valuesOf, List.filterMap_cons] at ih ⊢; omega
      | ok v => simp [errorsOf, valuesOf, List.filterMap_cons] at ih ⊢; omega

/-! ## Store item paths (C4) -/

theorem lowerHexCore_congr :
    ∀ (n f1 f2 : Nat), n < f1 → n < f2 → lowerHexCore f1 n = lowerHexCore f2 n := by
  intro n
  induction n using Nat.strong_induction_on with
  | _ n ih =>
    intro f1 f2 h1 h2
    match f1, f2 with
    | g1 + 1, g2 + 1 =>
      simp only [lowerHexCore]
      by_cases h : n < 16
      · simp [h]
      · simp only [if_neg h]
        have hd : n / 16 < n := Nat.div_lt_self (by omega) (by omega)
        rw [ih (n / 16) hd g1 g2 (by omega) (by omega)]

theorem lowerHex_eq (n : Nat) :
    lowerHex n = if n < 16 then [hexDigit n] else lowerHex (n / 16) ++ [hexDigit (n % 16)] := by
  rw [lowerHex, lowerHexCore]
  by_cases h : n < 16
  · simp [h]
  · simp only [if_neg h]
    have hd : n / 16 < n := Nat.div_lt_self (by omega) (by omega)
    rw [lowerHexCore_congr (n / 16) n (n / 16 + 1) (by omega) (by omega), lowerHex]

theorem lowerHex_length :
    ∀ (k n : Nat), 16 ^ k ≤ n → n < 16 ^ (k + 1) → (lowerHex n).length = k + 1 := by
  intro k
  induction k with
  | zero =>
    intro n h1 h2
    rw [lowerHex_eq, if_pos (by simpa using h2)]
    rfl
  | succ k ih =>
    intro n h1 h2
    have hbig : 16 ^ (k + 1) ≥ 16 := by
      calc (16 : Nat) = 16 ^ 1 := by ring
      _ ≤ 16 ^ (k + 1) := Nat.pow_le_pow_right (by omega) (by omega)
    have h16 : ¬ n < 16 := by omega
    rw [lowerHex_eq, if_neg h16, List.length_append]
    have hlo : 16 ^ k ≤ n / 16 := by
      rw [Nat.le_div_iff_mul_le (by omega)]
      calc 16 ^ k * 16 = 16 ^ (k + 1) := by ring
      _ ≤ n := h1
    have hhi : n / 16 < 16 ^ (k + 1) := by
      rw [Nat.div_lt_iff_lt_mul (by omega)]
      calc n < 16 ^ (k + 1 + 1) := h2
      _ = 16 ^ (k + 1) * 16 := by ring
    rw [ih (n / 16) hlo hhi]
    simp

/-- C4 counterexample: for the identity `16 ^ 30`, whose hex rendering has a
leading zero nibble (31 digits), the code does not place the item at the
2/2/28 split of the zero-padded 32-digit rendering claimed: `{:x}` drops
leading zeros, so the split is 2/2/27 of the unpadded rendering. -/
theorem C4_store_path_counterexample :
    valueIdItem ⟨["root"], "store"⟩ (16 ^ 30) ≠
      some (specValueIdItem ⟨["root"], "store"⟩ (16 ^ 30)) := by decide

/-- C4 (amended): `Item::value_id` splits the unpadded lowercase hex
rendering of the identity as 2/2/rest; whenever the identity is at least
`16 ^ 31` the rendering has all 32 digits, the padded and unpadded
renderings agree, and the split is exactly 2/2/28. -/
theorem C4_store_path_split (it : StoreItem) (id : Nat)
    (h1 : 16 ^ 31 ≤ id) (h2 : id < 16 ^ 32) :
    valueIdItem it id = some (specValueIdItem it id) ∧
      (lowerHex id).length = 32 ∧
      ((lowerHex id).take 2).length = 2 ∧
      (((lowerHex id).drop 2).take 2).length = 2 ∧
      ((lowerHex id).drop 4).length = 28 := by
  have hlen : (lowerHex id).length = 32 := lowerHex_length 31 id h1 h2
  have hp : paddedHex32 id = lowerHex id := by
    rw [paddedHex32, hlen]
    simp
  refine ⟨?_, hlen, ?_, ?_, ?_⟩
  · simp [valueIdItem, specValueIdItem, hp, hlen]
  · simp [hlen]
  · simp [hlen]
  · simp [hlen]

/-- Witness for the amended C4 at identity `16 ^ 31`. -/
theorem C4_store_path_split_witness :
    (16 : Nat) ^ 31 ≤ 16 ^ 31 ∧ (16 : Nat) ^ 31 < 16 ^ 32 ∧
      (valueIdItem ⟨["root"], "store"⟩ (16 ^ 31) =
          some (specValueIdItem ⟨["root"], "store"⟩ (16 ^ 31)) ∧
        (lowerHex (16 ^ 31)).length = 32 ∧
        ((lowerHex (16 ^ 31)).take 2).length = 2 ∧
        (((lowerHex (16 ^ 31)).drop 2).take 2).length = 2 ∧
        ((lowerHex (16 ^ 31)).drop 4).length = 28) :=
  ⟨by decide, by decide,
    C4_store_path_split ⟨["root"], "store"⟩ (16 ^ 31) (by decide) (by decide)⟩

/-- Witness for C8 on two errors around one ok value. -/
theorem C8_collect_result_aggregates_witness :
    errorsOf [Except.error 10, Except.ok 20, Except.error 30] ≠ [] ∧
      collectResult [Except.error 10, Except.ok 20, Except.error (30 : Nat)] =
        AggResult.aggregate (E := Nat) (A := Nat) [10, 30] :=
  ⟨by decide,
    (C8_collect_result_aggregates [Except.error 10, Except.ok 20, Except.error 30]).2.1
      (by decide)⟩

/-! ## Loader (C3, C7) -/

theorem cacheLookup_cons (k : SPath) (v : LoadValue)
    (cache : List (SPath × LoadValue)) (q : SPath) :
    cacheLookup ((k, v) :: cache) q = if k == q then some v else cacheLookup cache q := by
  by_cases h : k == q <;> simp [cacheLookup, List.find?, h]

theorem loadSeq_loading_eq
    (loadOne : LoadState → SPath → Option (LoadState × LoadValue))
    (h : ∀ s q r, loadOne s q = some r → r.1.loading = s.loading) :
    ∀ l s s2, loadSeq loadOne s l = some s2 → s2.loading = s.loading := by
  intro l
  induction l with
  | nil =>
    intro s s2 h2
    simp only [loadSeq, Option.some.injEq] at h2
    rw [← h2]
  | cons q qs ih =>
    intro s s2 h2
    simp only [loadSeq] at h2
    cases hq : loadOne s q with
    | none => rw [hq] at h2; cases h2
    | some r =>
      rw [hq] at h2
      obtain ⟨r1, r2⟩ := r
      simp only at h2
      exact (ih r1 s2 h2).trans (h s q (r1, r2) hq)

theorem loadScript_loading_eq (world : SPath → List SPath) :
    ∀ fuel s p r, loadScript world fuel s p = some r → r.1.loading = s.loading := by
  intro fuel
  induction fuel with
  | zero => intro s p r h; simp [loadScript] at h
  | succ fuel ih =>
    intro s p r h
    simp only [loadScript] at h
    by_cases hl : p ∈ s.loading
    · rw [if_pos hl] at h
      cases h
      rfl
    · rw [if_neg hl] at h
      cases hc : cacheLookup s.cache p with
      | some v =>
        rw [hc] at h
        cases h
        rfl
      | none =>
        rw [hc] at h
        cases hm : loadSeq (fun st q => loadScript world fuel st q)
            { loading := s.loading ++ [p], cache := s.cache, trace := s.trace ++ [p] }
            (world p) with
        | none => rw [hm] at h; cases h
        | some s2 =>
          rw [hm] at h
          cases h
          have h2 := loadSeq_loading_eq _ ih _ _ _ hm
          simp only [h2]
          simp

theorem loadSeq_inv
    (loadOne : LoadState → SPath → Option (LoadState × LoadValue))
    (hi : ∀ s q r, loadOne s q = some r → LoadInv s → LoadInv r.1) :
    ∀ l s s2, loadSeq loadOne s l = some s2 → LoadInv s → LoadInv s2 := by
  intro l
  induction l with
  | nil =>
    intro s s2 h2 hs
    simp only [loadSeq, Option.some.injEq] at h2
    rw [← h2]
    exact hs
  | cons q qs ih =>
    intro s s2 h2 hs
    simp only [loadSeq] at h2
    cases hq : loadOne s q with
    | none => rw [hq] at h2; cases h2
    | some r =>
      rw [hq] at h2
      obtain ⟨r1, r2⟩ := r
      simp only at h2
      exact ih r1 s2 h2 (hi s q (r1, r2) hq hs)

theorem loadScript_inv (world : SPath → List SPath) :
    ∀ fuel s p r, loadScript world fuel s p = some r → LoadInv s → LoadInv r.1 := by
  intro fuel
  induction fuel with
  | zero => intro s p r h; simp [loadScript] at h
  | succ fuel ih =>
    intro s p r h hs
    simp only [loadScript] at h
    by_cases hl : p ∈ s.loading
    · rw [if_pos hl] at h
      cases h
      exact hs
    · rw [if_neg hl] at h
      cases hc : cacheLookup s.cache p with
      | some v =>
        rw [hc] at h
        cases h
        exact hs
      | none =>
        rw [hc] at h
        cases hm : loadSeq (fun st q => loadScript world fuel st q)
            { loading := s.loading ++ [p], cache := s.cache, trace := s.trace ++ [p] }
            (world p) with
        | none => rw [hm] at h; cases h
        | some s2 =>
          rw [hm] at h
          cases h
          obtain ⟨hnd, hcnt, hmem⟩ := hs
          have hptr : p ∉ s.trace := by
            intro hin
            rcases (hmem p).mp hin with hin2 | hin2
            · rw [hc] at hin2; cases hin2
            · exact hl hin2
          have hs1 : LoadInv ⟨s.loading ++ [p], s.cache, s.trace ++ [p]⟩ := by
            refine ⟨?_, ?_, ?_⟩
            · simp [List.nodup_append, hnd, hl]
            · intro q
              by_cases hqp : q = p
              · subst hqp
                have : s.trace.count q = 0 := List.count_eq_zero.mpr hptr
                simp [List.count_append, this]
              · have : List.count q [p] = 0 := by
                  simp only [List.count_eq_zero, List.mem_singleton]
                  exact hqp
                simp only [List.count_append, this, Nat.add_zero]
                exact hcnt q
            · intro q
              simp only [List.mem_append, List.mem_singleton]
              constructor
              · rintro (hq | rfl)
                · rcases (hmem q).mp hq with h2 | h2
                  · exact Or.inl h2
                  · exact Or.inr (Or.inl h2)
                · exact Or.inr (Or.inr rfl)
              · rintro (h2 | h2 | rfl)
                · exact Or.inl ((hmem q).mpr (Or.inl h2))
                · exact Or.inl ((hmem q).mpr (Or.inr h2))
                · exact Or.inr rfl
          have hs2 : LoadInv s2 := loadSeq_inv _ ih _ _ _ hm hs1
          have hload2 : s2.loading = s.loading ++ [p] :=
            loadSeq_loading_eq _ (loadScript_loading_eq world fuel) _ _ _ hm
          obtain ⟨hnd2, hcnt2, hmem2⟩ := hs2
          refine ⟨?_, hcnt2, ?_⟩
          · simp only [hload2]
            simpa using hnd
          · intro q
            have hdl : (s.loading ++ [p]).dropLast = s.loading := by simp
            rw [hmem2 q, cacheLookup_cons, hload2, hdl]
            by_cases hqp : q = p
            · subst hqp
              simp
            · rw [if_neg (show ¬ ((p == q) = true) by
                simp only [beq_iff_eq]
                exact fun he => hqp he.symm)]
              simp only [List.mem_append, List.mem_singleton]
              constructor
              · rintro (h2 | h2 | rfl)
                · exact Or.inl h2
                · exact Or.inr h2
                · exact absurd rfl hqp
              · rintro (h2 | h2)
                · exact Or.inl h2
                · exact Or.inr (Or.inl h2)

/-- C3: loading a path already in the in-progress `loading` vector does not
evaluate the script and returns a Value of type Error whose message is
`already loading ` followed by the path (the state is untouched); and
every `load_script` call that returns restores the `loading` vector to its
state before the call, so it is empty again after a top-level load. -/
theorem C3_cyclic_load_detected (world : SPath → List SPath) (fuel : Nat)
    (s s0 : LoadState) (p q : SPath) (r : LoadState × LoadValue)
    (hf : 0 < fuel) (hp : p ∈ s.loading)
    (h : loadScript world fuel s0 q = some r) :
    loadScript world fuel s p =
        some (s, LoadValue.errorValue ("already loading " ++ p)) ∧
      r.1.loading = s0.loading ∧ (s0.loading = [] → r.1.loading = []) := by
  have hrest := loadScript_loading_eq world fuel s0 q r h
  refine ⟨?_, hrest, fun he => he ▸ hrest⟩
  obtain ⟨g, rfl⟩ : ∃ g, fuel = g + 1 := ⟨fuel - 1, by omega⟩
  simp [loadScript, hp]

/-- Witness for C3: in `cyclicWorld` the nested load of `a` is already in
progress and errors, and a completed top-level load of `a` leaves the
`loading` vector empty. -/
theorem C3_cyclic_load_detected_witness :
    0 < 3 ∧ "a" ∈ (⟨["a"], [], ["a"]⟩ : LoadState).loading ∧
      (loadScript cyclicWorld 3 ⟨["a"], [], ["a"]⟩ "a" =
          some (⟨["a"], [], ["a"]⟩, LoadValue.errorValue ("already loading " ++ "a")) ∧
        (⟨[], [("a", LoadValue.scriptValue "a"), ("b", LoadValue.scriptValue "b")],
            ["a", "b"]⟩ : LoadState).loading = (⟨[], [], []⟩ : LoadState).loading ∧
        ((⟨[], [], []⟩ : LoadState).loading = [] →
          (⟨[], [("a", LoadValue.scriptValue "a"), ("b", LoadValue.scriptValue "b")],
            ["a", "b"]⟩ : LoadState).loading = [])) := by
  have h : loadScript cyclicWorld 3 ⟨[], [], []⟩ "a" =
      some (⟨[],
        [("a", LoadValue.scriptValue "a"),
         ("b", LoadValue.scriptValue "b")], ["a", "b"]⟩, LoadValue.scriptValue "a") := by
    decide
  exact ⟨by decide, by decide,
    C3_cyclic_load_detected cyclicWorld 3 ⟨["a"], [], ["a"]⟩ ⟨[], [], []⟩ "a" "a" _
      (by decide) (by decide) h⟩

/-- C7: after a `load_script` of `p` completes, `p` is in the load cache
and a subsequent `load_script` of `p` returns exactly the cached Value
with the state unchanged (no re-evaluation); the loader invariant is
preserved, so every script is evaluated at most once across sequential
loads. -/
theorem C7_load_script_cached (world : SPath → List SPath)
    (fuel fuel2 : Nat) (s : LoadState) (p q : SPath) (r : LoadState × LoadValue)
    (hInv : LoadInv s) (hnl : p ∉ s.loading) (hf2 : 0 < fuel2)
    (h : loadScript world fuel s p = some r) :
    loadScript world fuel2 r.1 p = some r ∧ LoadInv r.1 ∧ r.1.trace.count q ≤ 1 := by
  have hload := loadScript_loading_eq world fuel s p r h
  have hinv := loadScript_inv world fuel s p r h hInv
  have hcache : cacheLookup r.1.cache p = some r.2 := by
    obtain ⟨g, rfl⟩ : ∃ g, fuel = g + 1 := by
      cases fuel with
      | zero => simp [loadScript] at h
      | succ g => exact ⟨g, rfl⟩
    simp only [loadScript] at h
    rw [if_neg hnl] at h
    cases hc : cacheLookup s.cache p with
    | some v =>
      rw [hc] at h
      cases h
      exact hc
    | none =>
      rw [hc] at h
      cases hm : loadSeq (fun st q2 => loadScript world g st q2)
          { loading := s.loading ++ [p], cache := s.cache, trace := s.trace ++ [p] }
          (world p) with
      | none => rw [hm] at h; cases h
      | some s2 =>
        rw [hm] at h
        cases h
        simp [cacheLookup_cons]
  have hnl2 : p ∉ r.1.loading := by rw [hload]; exact hnl
  refine ⟨?_, hinv, hinv.2.1 q⟩
  obtain ⟨g2, rfl⟩ : ∃ g2, fuel2 = g2 + 1 := ⟨fuel2 - 1, by omega⟩
  simp only [loadScript]
  rw [if_neg hnl2, hcache]

/-- Witness for C7: load `a` fresh, then observe the second load is served
from the cache unchanged. -/
theorem C7_load_script_cached_witness :
    LoadInv ⟨[], [], []⟩ ∧ "a" ∉ (⟨[], [], []⟩ : LoadState).loading ∧ 0 < 1 ∧
      (loadScript (fun _ => []) 1
            ⟨[], [("a", LoadValue.scriptValue "a")], ["a"]⟩ "a" =
          some (⟨[], [("a", LoadValue.scriptValue "a")], ["a"]⟩,
            LoadValue.scriptValue "a") ∧
        LoadInv ⟨[], [("a", LoadValue.scriptValue "a")], ["a"]⟩ ∧
        (⟨[], [("a", LoadValue.scriptValue "a")], ["a"]⟩ : LoadState).trace.count "a" ≤ 1) := by
  have hInv : LoadInv ⟨[], [], []⟩ := by
    refine ⟨List.nodup_nil, fun q => ?_, fun q => ?_⟩ <;> simp [cacheLookup]
  have h : loadScript (fun _ => []) 1 ⟨[], [], []⟩ "a" =
      some (⟨[], [("a", LoadValue.scriptValue "a")], ["a"]⟩, LoadValue.scriptValue "a") := by
    decide
  exact ⟨hInv, by decide, by decide,
    C7_load_script_cached (fun _ => []) 1 1 ⟨[], [], []⟩ "a" "a" _ hInv (by decide)
      (by decide) h⟩

/-! ## Map binding (C9) -/

/-- C9: indexing a Map through the Bind trait never fails for a missing
key — binding with `Index(k)` returns the associated value when `k` is
present and the `Unset` value (not an error) when `k` is absent. -/
theorem C9_map_bind_index (bindMapRes : List (MVal × MVal) → BindOut)
    (m : List (MVal × MVal)) (k : MVal) (v : Option MVal)
    (h : mapGetEntry m k = v) :
    mapBind bindMapRes m (BindArg.index k) =
        (match v with
         | some w => BindOut.value w
         | none => BindOut.unsetVal) ∧
      mapBind bindMapRes m (BindArg.index k) ≠ BindOut.bindErr := by
  cases v with
  | some w => constructor <;> simp [mapBind, h]
  | none => constructor <;> simp [mapBind, h]

/-- Witness for C9 on a one-entry map, indexed by its key and by an absent
key. -/
theorem C9_map_bind_index_witness :
    mapGetEntry [(⟨1, 10⟩, ⟨2, 20⟩)] ⟨1, 10⟩ = some ⟨2, 20⟩ ∧
      (mapBind (fun _ => BindOut.unitVal) [(⟨1, 10⟩, ⟨2, 20⟩)] (BindArg.index ⟨1, 10⟩) =
          BindOut.value ⟨2, 20⟩ ∧
        mapBind (fun _ => BindOut.unitVal) [(⟨1, 10⟩, ⟨2, 20⟩)] (BindArg.index ⟨1, 10⟩) ≠
          BindOut.bindErr) :=
  ⟨by decide,
    C9_map_bind_index (fun _ => BindOut.unitVal) [(⟨1, 10⟩, ⟨2, 20⟩)] ⟨1, 10⟩
      (some ⟨2, 20⟩) (by decide)⟩

/-! ## IntoTyped Bool lookup (C5) -/

/-- C5: looking up the `IntoTyped<Bool>` trait succeeds for every type,
and the resolved conversion maps a value of any type to `true`, except
that values of the `Unset` type convert to `false`. -/
theorem C5_into_bool_lookup (t : GType) (v : MVal) :
    (getImplIntoBool t).isSome = true ∧
      intoBoolConvert t v = some (if t = unsetType then false else true) := by
  by_cases h : t = unsetType
  · subst h
    constructor <;> rfl
  · have hbeq : (unsetType == t) = false := by
      simp only [beq_eq_false_iff_ne, ne_eq]
      exact fun he => h he.symm
    constructor <;>
      simp [getImplIntoBool, intoBoolConvert, intoBoolDirectImpls, toBoolGenerator,
        List.find?, hbeq, h]

/-- Witness for C5 at the `Unset` type. -/
theorem C5_into_bool_lookup_witness :
    (getImplIntoBool unsetType).isSome = true ∧
      intoBoolConvert unsetType ⟨0, 0⟩ =
        some (if unsetType = unsetType then false else true) :=
  C5_into_bool_lookup unsetType ⟨0, 0⟩

/-! ## Script path resolution (C6) -/

theorem orElse_eq_some_cases {α : Type} (x : Option α) (f : Unit → Option α) (b : α)
    (h : x.orElse f = some b) : x = some b ∨ (x = none ∧ f () = some b) := by
  cases x with
  | none => exact Or.inr ⟨rfl, h⟩
  | some a => exact Or.inl h

theorem findSome?_eq_some_cases {α β : Type} (g : α → Option β) :
    ∀ (l : List α) (b : β), l.findSome? g = some b → ∃ a, a ∈ l ∧ g a = some b := by
  intro l
  induction l with
  | nil => intro b h; simp [List.findSome?] at h
  | cons x xs ih =>
    intro b h
    simp only [List.findSome?] at h
    cases hx : g x with
    | some c =>
      rw [hx] at h
      refine ⟨x, List.mem_cons_self x xs, ?_⟩
      rw [hx]
      exact h
    | none =>
      rw [hx] at h
      obtain ⟨a, ha, hg⟩ := ih b h
      exact ⟨a, List.mem_cons_of_mem x ha, hg⟩

theorem descendToFile_sound (fs : FileSystem) (p q : FPath)
    (h : descendToFile fs p = some q) : fsKind fs q = some FKind.file := by
  rw [descendToFile] at h
  by_cases hf : fsKind fs (descendLoop fs (fs.length + 1) p) = some FKind.file
  · rw [if_pos hf] at h
    cases h
    exact hf
  · rw [if_neg hf] at h
    cases h

theorem scriptPathExists_sound (fs : FileSystem) (name : FPath) (tryE : Bool)
    (d p : FPath) (h : scriptPathExists fs name tryE d = some p) :
    fsKind fs p = some FKind.file := by
  rw [scriptPathExists, Option.bind_eq_some] at h
  obtain ⟨a, _, hd⟩ := h
  exact descendToFile_sound fs a p hd

theorem resolveScriptPath_wd_some (fs : FileSystem) (loadPath : List FPath)
    (cd : Option FPath) (name d : FPath) :
    resolveScriptPath fs loadPath (some d) cd name =
      (scriptPathExists fs name true d).orElse
        (fun _ => loadPath.findSome? (fun e => scriptPathExists fs name true e)) := rfl

theorem resolveScriptPath_wd_none (fs : FileSystem) (loadPath : List FPath)
    (cd : Option FPath) (name : FPath) :
    resolveScriptPath fs loadPath none cd name =
      (cd.bind (fun d => scriptPathExists fs name true d)).orElse
        (fun _ => loadPath.findSome? (fun e => scriptPathExists fs name true e)) := rfl

theorem scriptPathExists_ext_eq (fs : FileSystem) (name d : FPath) (fn : String)
    (hfn : fileNameOf name = some fn)
    (hext : (fsKind fs (withFileName (d ++ name) (fn ++ "." ++ scriptExtension))).isSome
      = true) :
    scriptPathExists fs name true d =
      descendToFile fs (withFileName (d ++ name) (fn ++ "." ++ scriptExtension)) := by
  simp only [scriptPathExists, hfn]
  rw [if_pos hext]
  rfl

theorem scriptPathExists_exact_eq (fs : FileSystem) (name d : FPath) (fn : String)
    (hfn : fileNameOf name = some fn)
    (hext : (fsKind fs (withFileName (d ++ name) (fn ++ "." ++ scriptExtension))).isSome
      = false)
    (hexact : (fsKind fs (d ++ name)).isSome = true) :
    scriptPathExists fs name true d = descendToFile fs (d ++ name) := by
  simp only [scriptPathExists, hfn, hext, hexact]
  rfl

/-- C6: script path resolution searches the working directory (or current
directory) then the load-path entries in order; within a directory the
extension-appended name is preferred and the exact name is the fallback;
the candidate is descended through `dir.ergo` directories; and resolution
returns `some` only when the final candidate is a file. -/
theorem C6_script_resolution (fs : FileSystem) (loadPath : List FPath)
    (wd cd : Option FPath) (name : FPath) :
    (∀ d p, scriptPathExists fs name true d = some p → fsKind fs p = some FKind.file) ∧
    (∀ p, resolveScriptPath fs loadPath wd cd name = some p →
      fsKind fs p = some FKind.file) ∧
    (∀ d p, wd = some d → scriptPathExists fs name true d = some p →
      resolveScriptPath fs loadPath wd cd name = some p) ∧
    (∀ d p, wd = none → cd = some d → scriptPathExists fs name true d = some p →
      resolveScriptPath fs loadPath wd cd name = some p) ∧
    (∀ d, wd = some d → scriptPathExists fs name true d = none →
      resolveScriptPath fs loadPath wd cd name =
        loadPath.findSome? (fun e => scriptPathExists fs name true e)) ∧
    (∀ d fn, fileNameOf name = some fn →
      (fsKind fs (withFileName (d ++ name) (fn ++ "." ++ scriptExtension))).isSome = true →
      scriptPathExists fs name true d =
        descendToFile fs (withFileName (d ++ name) (fn ++ "." ++ scriptExtension))) ∧
    (∀ d fn, fileNameOf name = some fn →
      (fsKind fs (withFileName (d ++ name) (fn ++ "." ++ scriptExtension))).isSome = false →
      (fsKind fs (d ++ name)).isSome = true →
      scriptPathExists fs name true d = descendToFile fs (d ++ name)) := by
  refine ⟨fun d p h => scriptPathExists_sound fs name true d p h, ?_, ?_, ?_, ?_,
    fun d fn hfn hext => scriptPathExists_ext_eq fs name d fn hfn hext,
    fun d fn hfn hext hexact => scriptPathExists_exact_eq fs name d fn hfn hext hexact⟩
  · intro p h
    cases wd with
    | some d =>
      rw [resolveScriptPath_wd_some] at h
      rcases orElse_eq_some_cases _ _ _ h with h2 | ⟨_, h2⟩
      · exact scriptPathExists_sound fs name true d p h2
      · obtain ⟨e, _, h3⟩ := findSome?_eq_some_cases _ loadPath p h2
        exact scriptPathExists_sound fs name true e p h3
    | none =>
      rw [resolveScriptPath_wd_none] at h
      rcases orElse_eq_some_cases _ _ _ h with h2 | ⟨_, h2⟩
      · rw [Option.bind_eq_some] at h2
        obtain ⟨d, _, h3⟩ := h2
        exact scriptPathExists_sound fs name true d p h3
      · obtain ⟨e, _, h3⟩ := findSome?_eq_some_cases _ loadPath p h2
        exact scriptPathExists_sound fs name true e p h3
  · intro d p hwd h
    subst hwd
    rw [resolveScriptPath_wd_some, h]
    rfl
  · intro d p hwd hcd h
    subst hwd
    subst hcd
    rw [resolveScriptPath_wd_none, Option.some_bind, h]
    rfl
  · intro d hwd h
    subst hwd
    rw [resolveScriptPath_wd_some, h]
    rfl

/-- Witness for C6: the name `foo` resolves in the working directory to
`foo.ergo`, in preference to the exact directory `foo`. -/
theorem C6_script_resolution_witness :
    resolveScriptPath
        [([("home" : String), "foo.ergo"], FKind.file), ([("home" : String), "foo"], FKind.dir)]
        [] (some ["home"]) none ["foo"] = some ["home", "foo.ergo"] :=
  (C6_script_resolution
      [([("home" : String), "foo.ergo"], FKind.file), ([("home" : String), "foo"], FKind.dir)]
      [] (some ["home"]) none ["foo"]).2.2.1 ["home"] ["home", "foo.ergo"] rfl (by decide)

/-! ## Item read semantics (C10) -/

/-- C10: `Item::read` is not side-effect-free and never fails on a missing
item — it opens with write and create options, so on an item that does not
exist it succeeds with empty content, creating the file and every parent
directory, after which `exists()` is true; only `read_existing` errors on
the missing item. -/
theorem C10_item_read_creates (st : FileSys) (it : FsItem)
    (h : itemExists st it = false) :
    itemRead st it =
        some (⟨it.dir.inits ++ st.dirs, (itemFullPath it, []) :: st.files⟩, []) ∧
      lookupFile ((itemFullPath it, []) :: st.files) (itemFullPath it) = some [] ∧
      itemExists ⟨it.dir.inits ++ st.dirs, (itemFullPath it, []) :: st.files⟩ it = true ∧
      (∀ q, q ∈ it.dir.inits → q ∈ it.dir.inits ++ st.dirs) ∧
      itemReadExisting st it = none := by
  have h2 : ((lookupFile st.files (itemFullPath it)).isSome ||
      decide (itemFullPath it ∈ st.dirs)) = false := h
  obtain ⟨ha, hb⟩ := Bool.or_eq_false_iff.mp h2
  have hfile : lookupFile st.files (itemFullPath it) = none := by
    cases hx : lookupFile st.files (itemFullPath it) with
    | none => rfl
    | some c => rw [hx] at ha; simp at ha
  have hdir : itemFullPath it ∉ st.dirs := of_decide_eq_false hb
  have hnotinits : itemFullPath it ∉ it.dir.inits := by
    intro hin
    have hpre : itemFullPath it <+: it.dir := (List.mem_inits _ _).mp hin
    have hle := hpre.length_le
    simp [itemFullPath] at hle
  have hnot1 : itemFullPath it ∉ it.dir.inits ++ st.dirs := by
    intro hin
    rcases List.mem_append.mp hin with h2 | h2
    · exact hnotinits h2
    · exact hdir h2
  refine ⟨?_, ?_, ?_, fun q hq => List.mem_append.mpr (Or.inl hq), ?_⟩
  · rw [itemRead, openItem, if_neg hnot1, hfile]
    rfl
  · simp [lookupFile, List.find?]
  · simp [itemExists, lookupFile, List.find?]
  · rw [itemReadExisting, openItem, if_neg hnot1, hfile]
    rfl

/-- Witness for C10 on an empty filesystem and the item `a/b/item`. -/
theorem C10_item_read_creates_witness :
    itemExists ⟨[], []⟩ ⟨["a", "b"], "item"⟩ = false ∧
      (itemRead ⟨[], []⟩ ⟨["a", "b"], "item"⟩ =
          some (⟨(["a", "b"] : FPath).inits ++ [],
            (itemFullPath ⟨["a", "b"], "item"⟩, []) :: []⟩, []) ∧
        lookupFile ((itemFullPath ⟨["a", "b"], "item"⟩, []) :: [])
          (itemFullPath ⟨["a", "b"], "item"⟩) = some [] ∧
        itemExists ⟨(["a", "b"] : FPath).inits ++ [],
          (itemFullPath ⟨["a", "b"], "item"⟩, []) :: []⟩ ⟨["a", "b"], "item"⟩ = true ∧
        (∀ q, q ∈ (["a", "b"] : FPath).inits → q ∈ (["a", "b"] : FPath).inits ++ []) ∧
        itemReadExisting ⟨[], []⟩ ⟨["a", "b"], "item"⟩ = none) :=
  ⟨by decide, C10_item_read_creates ⟨[], []⟩ ⟨["a", "b"], "item"⟩ (by decide)⟩

/-! ## Stored Map round-trip (C2) -/

theorem btInsert_keys (ids : List (Nat × Nat)) (k v x : Nat) :
    x ∈ (btInsert ids k v).map Prod.fst ↔ x = k ∨ x ∈ ids.map Prod.fst := by
  induction ids with
  | nil => simp [btInsert]
  | cons kv2 rest ih =>
    obtain ⟨k2, v2⟩ := kv2
    simp only [btInsert]
    by_cases h1 : k < k2
    · rw [if_pos h1]
      simp only [List.map_cons, List.mem_cons]
    · rw [if_neg h1]
      by_cases h2 : k = k2
      · rw [if_pos h2]
        subst h2
        simp only [List.map_cons, List.mem_cons]
        tauto
      · rw [if_neg h2]
        simp only [List.map_cons, List.mem_cons] at ih ⊢
        rw [ih]
        tauto

theorem btInsert_perm (ids : List (Nat × Nat)) (k v : Nat)
    (h : k ∉ ids.map Prod.fst) :
    (btInsert ids k v).Perm ((k, v) :: ids) := by
  induction ids with
  | nil => exact List.Perm.refl _
  | cons kv2 rest ih =>
    obtain ⟨k2, v2⟩ := kv2
    have hne : k ≠ k2 := by
      intro he
      exact h (by simp [he])
    have hnotin : k ∉ rest.map Prod.fst := fun hin => h (by simp [hin])
    simp only [btInsert]
    by_cases h1 : k < k2
    · rw [if_pos h1]
    · rw [if_neg h1, if_neg hne]
      exact ((ih hnotin).cons (k2, v2)).trans (List.Perm.swap (k, v) (k2, v2) rest)

theorem mem_mapVals (m : List (MVal × MVal)) (kv : MVal × MVal) (h : kv ∈ m) :
    kv.1 ∈ mapVals m ∧ kv.2 ∈ mapVals m := by
  induction m with
  | nil => cases h
  | cons kv2 rest ih =>
    obtain ⟨k2, v2⟩ := kv2
    rcases List.mem_cons.mp h with rfl | h2
    · simp [mapVals]
    · have := ih h2
      simp [mapVals, this.1, this.2]

theorem mapPutGo_ids :
    ∀ (m : List (MVal × MVal)) (store : VStore) (ids : List (Nat × Nat)),
    (m.map (fun kv => kv.1.vid)).Nodup →
    (∀ x, x ∈ m.map (fun kv => kv.1.vid) → x ∉ ids.map Prod.fst) →
    ((mapPutGo m store ids).2).Perm (ids ++ pairIds m) := by
  intro m
  induction m with
  | nil =>
    intro store ids _ _
    simp only [mapPutGo, pairIds, List.map_nil, List.append_nil]
    exact List.Perm.refl _
  | cons kv rest ih =>
    intro store ids hnd hdisj
    obtain ⟨k, v⟩ := kv
    simp only [mapPutGo]
    simp only [List.map_cons, List.nodup_cons] at hnd
    obtain ⟨hknotin, hnd2⟩ := hnd
    have hk_not_ids : k.vid ∉ ids.map Prod.fst := hdisj k.vid (by simp)
    have hdisj2 : ∀ x, x ∈ rest.map (fun kv => kv.1.vid) →
        x ∉ (btInsert ids k.vid v.vid).map Prod.fst := by
      intro x hx hxin
      rcases (btInsert_keys ids k.vid v.vid x).mp hxin with rfl | hin
      · exact hknotin hx
      · exact hdisj x (by simp [hx]) hin
    have hmain := ih ((v.vid, v) :: (k.vid, k) :: store) (btInsert ids k.vid v.vid)
      hnd2 hdisj2
    refine hmain.trans ?_
    refine ((btInsert_perm ids k.vid v.vid hk_not_ids).append_right (pairIds rest)).trans ?_
    have hp : pairIds ((k, v) :: rest) = (k.vid, v.vid) :: pairIds rest := rfl
    rw [hp]
    exact List.perm_middle.symm

theorem mapPutGo_store_preserve :
    ∀ (m : List (MVal × MVal)) (store : VStore) (ids : List (Nat × Nat)) (i : Nat),
    (∀ w, w ∈ mapVals m → w.vid ≠ i) →
    storeRead (mapPutGo m store ids).1 i = storeRead store i := by
  intro m
  induction m with
  | nil => intro store ids i _; rfl
  | cons kv rest ih =>
    intro store ids i hno
    obtain ⟨k, v⟩ := kv
    simp only [mapPutGo]
    rw [ih _ _ i (fun w hw => hno w (by simp [mapVals, hw]))]
    have hk : (k.vid == i) = false := by
      simp only [beq_eq_false_iff_ne, ne_eq]
      exact hno k (by simp [mapVals])
    have hv : (v.vid == i) = false := by
      simp only [beq_eq_false_iff_ne, ne_eq]
      exact hno v (by simp [mapVals])
    simp [storeRead, List.find?, hk, hv]

theorem mapPutGo_store_read :
    ∀ (m : List (MVal × MVal)) (store : VStore) (ids : List (Nat × Nat)) (w : MVal),
    (∀ a, a ∈ mapVals m → ∀ b, b ∈ mapVals m → a.vid = b.vid → a = b) →
    w ∈ mapVals m →
    storeRead (mapPutGo m store ids).1 w.vid = some w := by
  intro m
  induction m with
  | nil => intro store ids w _ hw; simp [mapVals] at hw
  | cons kv rest ih =>
    intro store ids w hinj hw
    obtain ⟨k, v⟩ := kv
    simp only [mapPutGo]
    by_cases hwrest : w ∈ mapVals rest
    · exact ih _ _ w
        (fun a ha b hb => hinj a (by simp [mapVals, ha]) b (by simp [mapVals, hb])) hwrest
    · have hno : ∀ x, x ∈ mapVals rest → x.vid ≠ w.vid := by
        intro x hx he
        have hxw : x = w := hinj x (by simp [mapVals, hx]) w hw he
        exact hwrest (hxw ▸ hx)
      rw [mapPutGo_store_preserve rest _ _ w.vid hno]
      simp only [mapVals, List.mem_cons] at hw
      rcases hw with rfl | rfl | hmem
      · by_cases hvk : v.vid = w.vid
        · have hveq : v = w := hinj v (by simp [mapVals]) w (by simp [mapVals]) hvk
          simp [storeRead, List.find?, hvk, hveq]
        · have hbeq : (v.vid == w.vid) = false := by
            simp only [beq_eq_false_iff_ne, ne_eq]
            exact hvk
          simp [storeRead, List.find?, hbeq]
      · simp [storeRead, List.find?]
      · exact absurd hmem hwrest

theorem mapGet_reads (store2 : VStore) :
    ∀ (prs : List (Nat × Nat)),
    (∀ pr, pr ∈ prs →
      (storeRead store2 pr.1).isSome = true ∧ (storeRead store2 pr.2).isSome = true) →
    ∃ l, mapGet store2 prs = some l ∧
      ∀ kv : MVal × MVal, kv ∈ l ↔
        ∃ pr, pr ∈ prs ∧ storeRead store2 pr.1 = some kv.1 ∧
          storeRead store2 pr.2 = some kv.2 := by
  intro prs
  induction prs with
  | nil =>
    intro _
    exact ⟨[], rfl, by simp⟩
  | cons pr rest ih =>
    intro hs
    obtain ⟨ki, vi⟩ := pr
    obtain ⟨hk, hv⟩ := hs (ki, vi) (List.mem_cons_self _ _)
    obtain ⟨kk, hkk⟩ := Option.isSome_iff_exists.mp hk
    obtain ⟨vv, hvv⟩ := Option.isSome_iff_exists.mp hv
    obtain ⟨l, hl, hiff⟩ := ih (fun pr2 hpr2 => hs pr2 (List.mem_cons_of_mem _ hpr2))
    refine ⟨(kk, vv) :: l, ?_, ?_⟩
    · simp only [mapGet, hkk, hvv, hl]
    · intro kv
      obtain ⟨kv1, kv2⟩ := kv
      simp only [List.mem_cons]
      constructor
      · rintro (heq | hmem)
        · injection heq with e1 e2
          subst e1
          subst e2
          exact ⟨(ki, vi), Or.inl rfl, hkk, hvv⟩
        · obtain ⟨pr2, hpr2, h1, h2⟩ := (hiff (kv1, kv2)).mp hmem
          exact ⟨pr2, Or.inr hpr2, h1, h2⟩
      · rintro ⟨pr2, hpr2, h1, h2⟩
        rcases hpr2 with rfl | hpr3
        · left
          have e1 : kk = kv1 := Option.some.inj (hkk.symm.trans h1)
          have e2 : vv = kv2 := Option.some.inj (hvv.symm.trans h2)
          rw [e1, e2]
        · right
          exact (hiff (kv1, kv2)).mpr ⟨pr2, hpr3, h1, h2⟩

/-- C2: the `Stored` round-trip for Maps — `Map::put` writes every key and
value to the store under its identity together with the serialised id
pairs, and `Map::get` on what was written reconstructs a map with exactly
the same key/value entries (given the identity contract: distinct values
occurring in the map have distinct identities). -/
theorem C2_map_stored_roundtrip (m : List (MVal × MVal)) (store : VStore)
    (hkeys : (m.map (fun kv => kv.1.vid)).Nodup)
    (hinj : ∀ a, a ∈ mapVals m → ∀ b, b ∈ mapVals m → a.vid = b.vid → a = b) :
    ∃ l, mapGet (mapPut m store).1 (mapPut m store).2 = some l ∧
      ∀ kv, kv ∈ l ↔ kv ∈ m := by
  have hperm : ((mapPut m store).2).Perm (pairIds m) := by
    have := mapPutGo_ids m store [] hkeys (by simp)
    simpa using this
  have hreadv : ∀ w, w ∈ mapVals m → storeRead (mapPut m store).1 w.vid = some w :=
    fun w hw => mapPutGo_store_read m store [] w hinj hw
  have hsome : ∀ pr, pr ∈ (mapPut m store).2 →
      (storeRead (mapPut m store).1 pr.1).isSome = true ∧
      (storeRead (mapPut m store).1 pr.2).isSome = true := by
    intro pr hpr
    have hpr2 : pr ∈ pairIds m := hperm.mem_iff.mp hpr
    obtain ⟨kv, hkv, rfl⟩ := List.mem_map.mp hpr2
    obtain ⟨h1, h2⟩ := mem_mapVals m kv hkv
    constructor
    · simp [hreadv kv.1 h1]
    · simp [hreadv kv.2 h2]
  obtain ⟨l, hl, hiff⟩ := mapGet_reads (mapPut m store).1 (mapPut m store).2 hsome
  refine ⟨l, hl, fun kv => ?_⟩
  rw [hiff kv]
  constructor
  · rintro ⟨pr, hpr, h1, h2⟩
    have hpr2 : pr ∈ pairIds m := hperm.mem_iff.mp hpr
    obtain ⟨kv0, hkv0, rfl⟩ := List.mem_map.mp hpr2
    obtain ⟨m1, m2⟩ := mem_mapVals m kv0 hkv0
    have e1 : kv0.1 = kv.1 := Option.some.inj ((hreadv kv0.1 m1).symm.trans h1)
    have e2 : kv0.2 = kv.2 := Option.some.inj ((hreadv kv0.2 m2).symm.trans h2)
    have hkveq : kv = kv0 := by
      obtain ⟨a, b⟩ := kv
      obtain ⟨a0, b0⟩ := kv0
      simp only at e1 e2
      rw [e1, e2]
    rw [hkveq]
    exact hkv0
  · intro hkv
    obtain ⟨m1, m2⟩ := mem_mapVals m kv hkv
    exact ⟨(kv.1.vid, kv.2.vid), hperm.mem_iff.mpr (List.mem_map.mpr ⟨kv, hkv, rfl⟩),
      hreadv kv.1 m1, hreadv kv.2 m2⟩

/-- Witness for C2 on a two-entry map over an empty store. -/
theorem C2_map_stored_roundtrip_witness :
    (([(⟨1, 10⟩, ⟨2, 20⟩), (⟨3, 30⟩, ⟨4, 40⟩)] : List (MVal × MVal)).map
        (fun kv => kv.1.vid)).Nodup ∧
      (∀ a, a ∈ mapVals [(⟨1, 10⟩, ⟨2, 20⟩), (⟨3, 30⟩, ⟨4, 40⟩)] →
        ∀ b, b ∈ mapVals [(⟨1, 10⟩, ⟨2, 20⟩), (⟨3, 30⟩, ⟨4, 40⟩)] →
          a.vid = b.vid → a = b) ∧
      (∃ l, mapGet (mapPut [(⟨1, 10⟩, ⟨2, 20⟩), (⟨3, 30⟩, ⟨4, 40⟩)] []).1
          (mapPut [(⟨1, 10⟩, ⟨2, 20⟩), (⟨3, 30⟩, ⟨4, 40⟩)] []).2 = some l ∧
        ∀ kv, kv ∈ l ↔ kv ∈ [(⟨1, 10⟩, ⟨2, 20⟩), (⟨3, 30⟩, ⟨4, 40⟩)]) :=
  ⟨by decide, by decide,
    C2_map_stored_roundtrip [(⟨1, 10⟩, ⟨2, 20⟩), (⟨3, 30⟩, ⟨4, 40⟩)] []
      (by decide) (by decide)⟩

end Ergo
